import Mathlib

/-!
Shallow embedding of the sample-library construction and MIDI event dispatch
of `src/run.py` (midieval).

The sound dictionary `self.sounds` is embedded as an insertion-ordered
association list with Python dict semantics (assignment updates an existing
key in place, otherwise appends).  Sound buffers are kept abstract in the
library-construction layer, because the source only stores and forwards
them there; the resampler `_resample_sound` is embedded separately over
exact arithmetic (rationals for the interpolation, a real-valued floor for
the new frame count, since `2 ** (s / 12.0)` is irrational in general).
-/

namespace Midieval

/-- A Python dict with int keys, represented as an insertion-ordered
association list. -/
abbrev SoundMap (S : Type) := List (Nat × S)

/-- The keys of the dict, in insertion order (`self.sounds.keys()`). -/
def mapKeys {S : Type} (m : SoundMap S) : List Nat :=
  m.map Prod.fst

/-- Dict lookup (`self.sounds.get(k)`). -/
def lookupM {S : Type} : SoundMap S → Nat → Option S
  | [], _ => none
  | (a, v) :: rest, k => if a = k then some v else lookupM rest k

/-- Dict assignment `m[k] = v`: update an existing key in place, otherwise
append the new key at the end. -/
def insertM {S : Type} : SoundMap S → Nat → S → SoundMap S
  | [], k, v => [(k, v)]
  | (a, w) :: rest, k, v =>
      if a = k then (k, v) :: rest else (a, w) :: insertM rest k v

/-- The dict invariant: keys occur at most once. -/
def nodupKeys {S : Type} (m : SoundMap S) : Prop :=
  (mapKeys m).Nodup

/-- The `PitchShiftFill` enum of the source. -/
inductive PitchShiftFill
  | OFF
  | FORWARD
  | BACKWARD
deriving DecidableEq

/-- `MidiSoundPlayer._preload_sounds`: iterate the note map in insertion
order; a falsy path (`if path:`) is skipped, a missing file or a decoder
error (`pygame.error`) is logged and the entry is skipped, a successful
decode is stored with `self.sounds[note] = ...`.  `decode` abstracts the
external `path.exists()` check together with `pygame.mixer.Sound(path)`:
`none` means the file is absent or decoding raised. -/
def preloadSounds {S FA : Type} (decode : FA → Option S) :
    List (Nat × Option FA) → SoundMap S → SoundMap S
  | [], sounds => sounds
  | (note, pathOpt) :: rest, sounds =>
    match pathOpt with
    | none => preloadSounds decode rest sounds
    | some p =>
      match decode p with
      | none => preloadSounds decode rest sounds
      | some s => preloadSounds decode rest (insertM sounds note s)

/-- The inner loop `for fill_note in range(...): self.sounds[fill_note] =
self._resample_sound(root_sound, fill_note - note)` over a list of fill
notes. -/
def fillRange {S : Type} (resample : S → Int → S) (rootSound : S)
    (root : Nat) : List Nat → SoundMap S → SoundMap S
  | [], m => m
  | fn :: rest, m =>
      fillRange resample rootSound root rest
        (insertM m fn (resample rootSound ((fn : Int) - (root : Int))))

/-- The FORWARD branch of `_fill_unassigned_keys`: for each assigned note in
ascending order, `next_note` is the following assigned note or 109, and the
notes strictly between are filled from the current `self.sounds[note]`.  The
`none` branch of the lookup is unreachable when `assigned` lists the keys of
`m` (Python would raise `KeyError`). -/
def fillForwardFrom {S : Type} (resample : S → Int → S) :
    SoundMap S → List Nat → SoundMap S
  | m, [] => m
  | m, note :: rest =>
    match lookupM m note with
    | none => fillForwardFrom resample m rest
    | some rootSound =>
      fillForwardFrom resample
        (fillRange resample rootSound note
          (List.range' (note + 1) (rest.headD 109 - (note + 1))) m)
        rest

/-- The BACKWARD branch of `_fill_unassigned_keys`: the assigned notes are
processed from highest to lowest; `prev` is the next lower assigned note, or
21 for the lowest one (`assigned_notes[i - 1] if i > 0 else 21`), and the
notes in `range(prev + 1, note)` are filled from `self.sounds[note]`. -/
def fillBackwardFrom {S : Type} (resample : S → Int → S) :
    SoundMap S → Nat → List Nat → SoundMap S
  | m, _, [] => m
  | m, prev, note :: rest =>
    match lookupM (fillBackwardFrom resample m note rest) note with
    | none => fillBackwardFrom resample m note rest
    | some rootSound =>
      fillRange resample rootSound note
        (List.range' (prev + 1) (note - (prev + 1)))
        (fillBackwardFrom resample m note rest)

/-- `sorted(self.sounds.keys())`. -/
def sortedKeys {S : Type} (m : SoundMap S) : List Nat :=
  List.insertionSort (· ≤ ·) (mapKeys m)

/-- `MidiSoundPlayer._fill_unassigned_keys`.  The local
`all_notes = list(range(21, 109))` of the source is unused dead code and is
not modelled.  With policy OFF neither branch runs. -/
def fillUnassignedKeys {S : Type} (resample : S → Int → S)
    (policy : PitchShiftFill) (m : SoundMap S) : SoundMap S :=
  match policy with
  | .FORWARD => fillForwardFrom resample m (sortedKeys m)
  | .BACKWARD => fillBackwardFrom resample m 21 (sortedKeys m)
  | .OFF => m

/-- The shared body of `__init__` and `set_note_map`: preload the note map
into the current `self.sounds`, then run the fill pass unless the policy is
OFF. -/
def rebuild {S FA : Type} (decode : FA → Option S) (resample : S → Int → S)
    (policy : PitchShiftFill) (noteMap : List (Nat × Option FA))
    (cur : SoundMap S) : SoundMap S :=
  let s := preloadSounds decode noteMap cur
  if policy = .OFF then s else fillUnassignedKeys resample policy s

/-- `MidiSoundPlayer.__init__`: `self.sounds = {}`, preload, fill. -/
def buildLibrary {S FA : Type} (decode : FA → Option S)
    (resample : S → Int → S) (policy : PitchShiftFill)
    (noteMap : List (Nat × Option FA)) : SoundMap S :=
  rebuild decode resample policy noteMap []

/-- `MidiSoundPlayer.set_note_map`: replaces `self.config.note_map` and
reruns preload and fill over the EXISTING `self.sounds` dict, which is not
cleared. -/
def setNoteMap {S FA : Type} (decode : FA → Option S)
    (resample : S → Int → S) (policy : PitchShiftFill)
    (newMap : List (Nat × Option FA)) (cur : SoundMap S) : SoundMap S :=
  rebuild decode resample policy newMap cur

/-- Error-aware variant of `fillRange`: when resampling raises (see
`resampleSoundE`), the exception propagates and the whole pass aborts. -/
def fillRangeE {S : Type} (resampleE : S → Int → Option S) (rootSound : S)
    (root : Nat) : List Nat → SoundMap S → Option (SoundMap S)
  | [], m => some m
  | fn :: rest, m =>
    match resampleE rootSound ((fn : Int) - (root : Int)) with
    | none => none
    | some d => fillRangeE resampleE rootSound root rest (insertM m fn d)

/-- Error-aware variant of `fillForwardFrom`. -/
def fillForwardFromE {S : Type} (resampleE : S → Int → Option S) :
    SoundMap S → List Nat → Option (SoundMap S)
  | m, [] => some m
  | m, note :: rest =>
    match lookupM m note with
    | none => fillForwardFromE resampleE m rest
    | some rootSound =>
      match fillRangeE resampleE rootSound note
          (List.range' (note + 1) (rest.headD 109 - (note + 1))) m with
      | none => none
      | some m' => fillForwardFromE resampleE m' rest

/-- Error-aware variant of `fillBackwardFrom`. -/
def fillBackwardFromE {S : Type} (resampleE : S → Int → Option S) :
    SoundMap S → Nat → List Nat → Option (SoundMap S)
  | m, _, [] => some m
  | m, prev, note :: rest =>
    match fillBackwardFromE resampleE m note rest with
    | none => none
    | some m' =>
      match lookupM m' note with
      | none => some m'
      | some rootSound =>
        fillRangeE resampleE rootSound note
          (List.range' (prev + 1) (note - (prev + 1))) m'

/-- Error-aware variant of `_fill_unassigned_keys`: `none` models an
uncaught exception escaping the pass (there is no try/except in the
function). -/
def fillUnassignedKeysE {S : Type} (resampleE : S → Int → Option S)
    (policy : PitchShiftFill) (m : SoundMap S) : Option (SoundMap S) :=
  match policy with
  | .FORWARD => fillForwardFromE resampleE m (sortedKeys m)
  | .BACKWARD => fillBackwardFromE resampleE m 21 (sortedKeys m)
  | .OFF => some m

/-- `numpy` `astype` from float to an integer sample dtype: truncation
toward zero. -/
def truncQ (q : Rat) : Int :=
  if 0 ≤ q then ⌊q⌋ else ⌈q⌉

/-- `np.interp(p, np.arange(n), xs)` for a single query point `p`, with
`xs` of length `n`: clamp below 0 and above `n - 1`, linear interpolation
in between (the sample points are consecutive integers). -/
def interpAt (xs : List Rat) (p : Rat) : Rat :=
  match xs with
  | [] => 0
  | x0 :: rest =>
    if p ≤ 0 then x0
    else if (((x0 :: rest).length : Rat) - 1) ≤ p then (x0 :: rest).getLastD 0
    else
      let k := p.floor.toNat
      let t := p - (k : Rat)
      (x0 :: rest).getD k 0 * (1 - t) + (x0 :: rest).getD (k + 1) 0 * t

/-- `np.linspace(0, stop, num)` with the default endpoint-inclusive
spacing: `num` points `i * stop / (num - 1)`; a single point is the start
value 0; zero points is the empty list. -/
def linspace (stop : Rat) (num : Nat) : List Rat :=
  if num ≤ 1 then (List.range num).map (fun _ : Nat => (0 : Rat))
  else
    (List.range num).map (fun i : Nat => (i : Rat) * stop / ((num : Rat) - 1))

/-- `new_length = int(arr.shape[0] / factor)` with
`factor = 2 ** (semitone_shift / 12.0)`; the quotient is nonnegative, so
Python `int()` truncation is the floor. -/
noncomputable def newLength (F : Nat) (s : Int) : Int :=
  ⌊(F : Real) / (2 : Real) ^ ((s : Real) / 12)⌋

/-- One channel of the frame array, as rationals:
`arr[:, ch]` (stereo) or `arr` itself (mono is the single channel 0). -/
def channelOf (frames : List (List Int)) (ch : Nat) : List Rat :=
  frames.map (fun fr => ((fr.getD ch 0 : Int) : Rat))

/-- The interpolation core of `_resample_sound` once `new_length` is known:
each output frame takes, per channel, `np.interp` of that channel at the
`np.linspace(0, arr.shape[0], new_length)` positions, cast back to the
integer dtype.  The mono and multi-channel branches of the source perform
this same per-channel computation. -/
def resampleCore (frames : List (List Int)) (num : Nat) : List (List Int) :=
  (linspace (frames.length : Rat) num).map (fun p =>
    (List.range (frames.headD []).length).map (fun ch =>
      truncQ (interpAt (channelOf frames ch) p)))

/-- `MidiSoundPlayer._resample_sound` on a buffer of frames (each frame a
list of channel samples). -/
noncomputable def resampleSound (frames : List (List Int)) (s : Int) :
    List (List Int) :=
  resampleCore frames (newLength frames.length s).toNat

/-- `_resample_sound` including its failure mode: on a zero-frame buffer
`np.interp` raises `ValueError` (empty array of sample points), which the
source does not catch; `none` models that exception. -/
noncomputable def resampleSoundE (frames : List (List Int)) (s : Int) :
    Option (List (List Int)) :=
  if frames.length = 0 then none else some (resampleSound frames s)

/-- Modelled from the spec for comparison (claim C5): frame `i`, channel
`ch` obtained by linear interpolation of the source frame sequence at index
position `i * sourceFrameCount / newFrameCount`. -/
def specResampleAt (frames : List (List Int)) (num i ch : Nat) : Int :=
  truncQ (interpAt (channelOf frames ch)
    ((i : Rat) * (frames.length : Rat) / (num : Rat)))

/-- The message kinds `handle_midi_message` can distinguish: the source
compares `msg.type` with the string `note_on`; every other type (note_off
included) falls through. -/
inductive MsgKind
  | note_on
  | note_off
  | other
deriving DecidableEq

/-- The fields of a `mido` message that `handle_midi_message` reads. -/
structure MidiMsg where
  kind : MsgKind
  note : Nat
  velocity : Nat

/-- `MidiSoundPlayer.handle_midi_message`: on `note_on` with positive
velocity, look the note up in `self.sounds`; if found, `sound.play()`
starts one more concurrent playback (modelled by appending to the list of
in-progress playbacks).  Nothing else changes any state. -/
def handleMidiMessage {S : Type} (sounds : SoundMap S) (msg : MidiMsg)
    (playing : List S) : List S :=
  if msg.kind = MsgKind.note_on ∧ 0 < msg.velocity then
    match lookupM sounds msg.note with
    | some s => playing ++ [s]
    | none => playing
  else playing

end Midieval

namespace Midieval

theorem mapKeys_nil {S : Type} : mapKeys ([] : SoundMap S) = [] := rfl

theorem mapKeys_cons {S : Type} (a : Nat) (w : S) (rest : SoundMap S) :
    mapKeys ((a, w) :: rest) = a :: mapKeys rest := rfl

theorem lookupM_insertM_self {S : Type} (m : SoundMap S) (k : Nat) (v : S) :
    lookupM (insertM m k v) k = some v := by
  induction m with
  | nil => simp [insertM, lookupM]
  | cons p rest ih =>
    obtain ⟨a, w⟩ := p
    by_cases h : a = k
    · simp [insertM, h, lookupM]
    · simp [insertM, h, lookupM, ih]

theorem lookupM_insertM_ne {S : Type} (m : SoundMap S) (k k' : Nat) (v : S)
    (h : k' ≠ k) : lookupM (insertM m k v) k' = lookupM m k' := by
  induction m with
  | nil =>
    simp only [insertM, lookupM, if_neg (Ne.symm h)]
  | cons p rest ih =>
    obtain ⟨a, w⟩ := p
    by_cases ha : a = k
    · subst ha
      simp only [insertM, if_pos rfl, lookupM, if_neg (Ne.symm h)]
    · by_cases hak : a = k' <;>
        simp [insertM, ha, lookupM, hak, ih, h]

theorem mapKeys_insertM {S : Type} (m : SoundMap S) (k : Nat) (v : S) :
    mapKeys (insertM m k v) =
      if k ∈ mapKeys m then mapKeys m else mapKeys m ++ [k] := by
  induction m with
  | nil => simp [insertM, mapKeys_nil, mapKeys_cons]
  | cons p rest ih =>
    obtain ⟨a, w⟩ := p
    by_cases ha : a = k
    · subst ha
      simp [insertM, mapKeys_cons]
    · by_cases hk : k ∈ mapKeys rest <;>
        simp [insertM, ha, mapKeys_cons, ih, hk, Ne.symm ha]

theorem mem_mapKeys_insertM {S : Type} (m : SoundMap S) (k a : Nat) (v : S) :
    a ∈ mapKeys (insertM m k v) ↔ a ∈ mapKeys m ∨ a = k := by
  rw [mapKeys_insertM]
  by_cases hk : k ∈ mapKeys m
  · simp only [if_pos hk]
    constructor
    · exact Or.inl
    · rintro (h | rfl)
      · exact h
      · exact hk
  · simp [if_neg hk]

theorem nodupKeys_insertM {S : Type} (m : SoundMap S) (k : Nat) (v : S)
    (h : nodupKeys m) : nodupKeys (insertM m k v) := by
  unfold nodupKeys at h ⊢
  rw [mapKeys_insertM]
  by_cases hk : k ∈ mapKeys m
  · simpa [if_pos hk] using h
  · rw [if_neg hk]
    simpa [List.nodup_append] using ⟨h, fun hmem => hk hmem⟩

theorem mem_mapKeys_of_lookupM {S : Type} (m : SoundMap S) (k : Nat) (b : S)
    (h : lookupM m k = some b) : k ∈ mapKeys m := by
  induction m with
  | nil => simp [lookupM] at h
  | cons p rest ih =>
    obtain ⟨a, w⟩ := p
    rw [mapKeys_cons]
    by_cases ha : a = k
    · simp [ha]
    · simp only [lookupM, if_neg ha] at h
      simp [ih h]

theorem lookupM_eq_none_of_not_mem {S : Type} (m : SoundMap S) (k : Nat)
    (h : k ∉ mapKeys m) : lookupM m k = none := by
  induction m with
  | nil => simp [lookupM]
  | cons p rest ih =>
    obtain ⟨a, w⟩ := p
    rw [mapKeys_cons] at h
    simp only [List.mem_cons, not_or] at h
    simp only [lookupM, if_neg (Ne.symm h.1)]
    exact ih h.2

theorem lookupM_isSome_of_mem {S : Type} (m : SoundMap S) (k : Nat)
    (h : k ∈ mapKeys m) : (lookupM m k).isSome := by
  induction m with
  | nil => simp [mapKeys_nil] at h
  | cons p rest ih =>
    obtain ⟨a, w⟩ := p
    by_cases ha : a = k
    · simp [lookupM, ha]
    · rw [mapKeys_cons] at h
      simp only [List.mem_cons] at h
      rcases h with h | h
      · exact absurd h.symm ha
      · simp [lookupM, ha, ih h]

theorem lookupM_insertM_isSome {S : Type} (m : SoundMap S) (k n : Nat) (v : S)
    (h : (lookupM m n).isSome) : (lookupM (insertM m k v) n).isSome := by
  by_cases hk : n = k
  · subst hk
    simp [lookupM_insertM_self]
  · simpa [lookupM_insertM_ne m k n v hk] using h

theorem mem_span (a b n : Nat) : n ∈ List.range' a (b - a) ↔ a ≤ n ∧ n < b := by
  rw [List.mem_range'_1]
  omega

theorem lookupM_fillRange_not_mem {S : Type} (resample : S → Int → S) (rs : S)
    (root : Nat) (n : Nat) :
    ∀ (notes : List Nat) (m : SoundMap S), n ∉ notes →
      lookupM (fillRange resample rs root notes m) n = lookupM m n := by
  intro notes
  induction notes with
  | nil => intro m _; rfl
  | cons fn rest ih =>
    intro m h
    simp only [List.mem_cons, not_or] at h
    simp only [fillRange]
    rw [ih _ h.2, lookupM_insertM_ne _ _ _ _ h.1]

theorem lookupM_fillRange_mem {S : Type} (resample : S → Int → S) (rs : S)
    (root : Nat) (n : Nat) :
    ∀ (notes : List Nat) (m : SoundMap S), n ∈ notes →
      lookupM (fillRange resample rs root notes m) n
        = some (resample rs ((n : Int) - (root : Int))) := by
  intro notes
  induction notes with
  | nil => intro m h; simp at h
  | cons fn rest ih =>
    intro m h
    simp only [fillRange]
    by_cases hr : n ∈ rest
    · exact ih _ hr
    · have hfn : n = fn := (List.mem_cons.mp h).resolve_right hr
      subst hfn
      rw [lookupM_fillRange_not_mem _ _ _ _ _ _ hr, lookupM_insertM_self]

theorem lookupM_fillRange_isSome {S : Type} (resample : S → Int → S) (rs : S)
    (root : Nat) (n : Nat) :
    ∀ (notes : List Nat) (m : SoundMap S), (lookupM m n).isSome →
      (lookupM (fillRange resample rs root notes m) n).isSome := by
  intro notes
  induction notes with
  | nil => intro m h; exact h
  | cons fn rest ih =>
    intro m h
    simp only [fillRange]
    exact ih _ (lookupM_insertM_isSome _ _ _ _ h)

theorem nodupKeys_fillRange {S : Type} (resample : S → Int → S) (rs : S)
    (root : Nat) :
    ∀ (notes : List Nat) (m : SoundMap S), nodupKeys m →
      nodupKeys (fillRange resample rs root notes m) := by
  intro notes
  induction notes with
  | nil => intro m h; exact h
  | cons fn rest ih =>
    intro m h
    simp only [fillRange]
    exact ih _ (nodupKeys_insertM _ _ _ h)

theorem fillForwardFrom_le_preserve {S : Type} (resample : S → Int → S)
    (n : Nat) :
    ∀ (assigned : List Nat) (m : SoundMap S), (∀ a ∈ assigned, n ≤ a) →
      lookupM (fillForwardFrom resample m assigned) n = lookupM m n := by
  intro assigned
  induction assigned with
  | nil => intro m _; rfl
  | cons note rest ih =>
    intro m h
    have hrest : ∀ a ∈ rest, n ≤ a := fun a ha => h a (by simp [ha])
    cases hl : lookupM m note with
    | none =>
      simp only [fillForwardFrom, hl]
      exact ih _ hrest
    | some rs =>
      simp only [fillForwardFrom, hl]
      rw [ih _ hrest, lookupM_fillRange_not_mem _ _ _ _ _ _ ?_]
      intro hmem
      have hsp := (mem_span _ _ _).mp hmem
      have hn : n ≤ note := h note (by simp)
      omega

theorem fillForwardFrom_mem_preserve {S : Type} (resample : S → Int → S)
    (n : Nat) :
    ∀ (assigned : List Nat) (m : SoundMap S),
      List.Sorted (· < ·) assigned → n ∈ assigned →
      lookupM (fillForwardFrom resample m assigned) n = lookupM m n := by
  intro assigned
  induction assigned with
  | nil => intro m _ hmem; simp at hmem
  | cons note rest ih =>
    intro m hs hmem
    obtain ⟨hlt, hsr⟩ := List.sorted_cons.mp hs
    rcases List.mem_cons.mp hmem with rfl | hr
    · cases hl : lookupM m n with
      | none =>
        simp only [fillForwardFrom, hl]
        rw [fillForwardFrom_le_preserve _ _ _ _
          (fun a ha => le_of_lt (hlt a ha))]
        exact hl
      | some rs =>
        simp only [fillForwardFrom, hl]
        rw [fillForwardFrom_le_preserve _ _ _ _
            (fun a ha => le_of_lt (hlt a ha)),
          lookupM_fillRange_not_mem _ _ _ _ _ _
            (by intro hmem2; have hsp := (mem_span _ _ _).mp hmem2; omega)]
        exact hl
    · have hnote : note < n := hlt n hr
      have hnext : rest.headD 109 ≤ n := by
        cases rest with
        | nil => simp at hr
        | cons b t =>
          rcases List.mem_cons.mp hr with rfl | h2
          · simp
          · simp only [List.headD_cons]
            exact le_of_lt ((List.sorted_cons.mp hsr).1 n h2)
      cases hl : lookupM m note with
      | none =>
        simp only [fillForwardFrom, hl]
        exact ih _ hsr hr
      | some rs =>
        simp only [fillForwardFrom, hl]
        rw [ih _ hsr hr, lookupM_fillRange_not_mem _ _ _ _ _ _
          (by intro hmem2; have hsp := (mem_span _ _ _).mp hmem2; omega)]

theorem fillForwardFrom_between {S : Type} (resample : S → Int → S)
    (a n : Nat) (s : S) (han : a < n) (h109 : n < 109) :
    ∀ (assigned : List Nat) (m : SoundMap S),
      List.Sorted (· < ·) assigned → a ∈ assigned →
      lookupM m a = some s → (∀ b ∈ assigned, a < b → n < b) →
      lookupM (fillForwardFrom resample m assigned) n
        = some (resample s ((n : Int) - (a : Int))) := by
  intro assigned
  induction assigned with
  | nil => intro m _ ha _ _; simp at ha
  | cons note rest ih =>
    intro m hs ha hl hnear
    obtain ⟨hlt, hsr⟩ := List.sorted_cons.mp hs
    rcases List.mem_cons.mp ha with rfl | hr
    · simp only [fillForwardFrom, hl]
      have hspan : n ∈ List.range' (a + 1) (rest.headD 109 - (a + 1)) := by
        rw [mem_span]
        refine ⟨by omega, ?_⟩
        cases rest with
        | nil => simpa using h109
        | cons b t =>
          simpa using hnear b (by simp) (hlt b (by simp))
      rw [fillForwardFrom_le_preserve _ _ _ _
          (fun x hx => le_of_lt (hnear x (by simp [hx]) (hlt x hx))),
        lookupM_fillRange_mem _ _ _ _ _ _ hspan]
    · have hna : note < a := hlt a hr
      have hnext : rest.headD 109 ≤ a := by
        cases rest with
        | nil => simp at hr
        | cons b t =>
          rcases List.mem_cons.mp hr with rfl | h2
          · simp
          · simp only [List.headD_cons]
            exact le_of_lt ((List.sorted_cons.mp hsr).1 a h2)
      cases hlc : lookupM m note with
      | none =>
        simp only [fillForwardFrom, hlc]
        exact ih _ hsr hr hl (fun b hb hab => hnear b (by simp [hb]) hab)
      | some rs =>
        simp only [fillForwardFrom, hlc]
        refine ih _ hsr hr ?_ (fun b hb hab => hnear b (by simp [hb]) hab)
        rw [lookupM_fillRange_not_mem _ _ _ _ _ _ ?_]
        · exact hl
        · intro hmem2
          have hsp := (mem_span _ _ _).mp hmem2
          omega

theorem fillBackwardFrom_low_preserve {S : Type} (resample : S → Int → S)
    (n : Nat) :
    ∀ (assigned : List Nat) (m : SoundMap S) (prev : Nat), n ≤ prev →
      (∀ a ∈ assigned, n < a) →
      lookupM (fillBackwardFrom resample m prev assigned) n = lookupM m n := by
  intro assigned
  induction assigned with
  | nil => intro m prev _ _; rfl
  | cons note rest ih =>
    intro m prev hp h
    have h1 : lookupM (fillBackwardFrom resample m note rest) n = lookupM m n :=
      ih m note (le_of_lt (h note (by simp))) (fun a ha => h a (by simp [ha]))
    cases hlc : lookupM (fillBackwardFrom resample m note rest) note with
    | none =>
      simp only [fillBackwardFrom, hlc]
      exact h1
    | some rs =>
      simp only [fillBackwardFrom, hlc]
      rw [lookupM_fillRange_not_mem _ _ _ _ _ _ ?_, h1]
      intro hmem
      have hsp := (mem_span _ _ _).mp hmem
      omega

theorem fillBackwardFrom_high_preserve {S : Type} (resample : S → Int → S)
    (n : Nat) :
    ∀ (assigned : List Nat) (m : SoundMap S) (prev : Nat),
      (∀ a ∈ assigned, a ≤ n) →
      lookupM (fillBackwardFrom resample m prev assigned) n = lookupM m n := by
  intro assigned
  induction assigned with
  | nil => intro m prev _; rfl
  | cons note rest ih =>
    intro m prev h
    have h1 : lookupM (fillBackwardFrom resample m note rest) n = lookupM m n :=
      ih m note (fun a ha => h a (by simp [ha]))
    cases hlc : lookupM (fillBackwardFrom resample m note rest) note with
    | none =>
      simp only [fillBackwardFrom, hlc]
      exact h1
    | some rs =>
      simp only [fillBackwardFrom, hlc]
      rw [lookupM_fillRange_not_mem _ _ _ _ _ _ ?_, h1]
      intro hmem
      have hsp := (mem_span _ _ _).mp hmem
      have hn : note ≤ n := h note (by simp)
      omega

theorem fillBackwardFrom_mem_preserve {S : Type} (resample : S → Int → S)
    (n : Nat) :
    ∀ (assigned : List Nat) (m : SoundMap S) (prev : Nat),
      List.Sorted (· < ·) assigned → n ∈ assigned →
      lookupM (fillBackwardFrom resample m prev assigned) n = lookupM m n := by
  intro assigned
  induction assigned with
  | nil => intro m prev _ hmem; simp at hmem
  | cons note rest ih =>
    intro m prev hs hmem
    obtain ⟨hlt, hsr⟩ := List.sorted_cons.mp hs
    rcases List.mem_cons.mp hmem with rfl | hr
    · have h1 : lookupM (fillBackwardFrom resample m n rest) n = lookupM m n :=
        fillBackwardFrom_low_preserve _ _ _ _ _ le_rfl hlt
      cases hlc : lookupM (fillBackwardFrom resample m n rest) n with
      | none =>
        simp only [fillBackwardFrom, hlc]
        rw [← h1, hlc]
      | some rs =>
        simp only [fillBackwardFrom, hlc]
        rw [lookupM_fillRange_not_mem _ _ _ _ _ _
          (by intro hmem2; have hsp := (mem_span _ _ _).mp hmem2; omega), h1]
    · have hnote : note < n := hlt n hr
      have h1 : lookupM (fillBackwardFrom resample m note rest) n = lookupM m n :=
        ih m note hsr hr
      cases hlc : lookupM (fillBackwardFrom resample m note rest) note with
      | none =>
        simp only [fillBackwardFrom, hlc]
        exact h1
      | some rs =>
        simp only [fillBackwardFrom, hlc]
        rw [lookupM_fillRange_not_mem _ _ _ _ _ _
          (by intro hmem2; have hsp := (mem_span _ _ _).mp hmem2; omega), h1]

theorem fillBackwardFrom_between {S : Type} (resample : S → Int → S)
    (a n : Nat) (s : S) (hn : n < a) :
    ∀ (assigned : List Nat) (m : SoundMap S) (prev : Nat),
      List.Sorted (· < ·) assigned → a ∈ assigned →
      lookupM m a = some s → (∀ b ∈ assigned, b < a → b < n) → prev < n →
      lookupM (fillBackwardFrom resample m prev assigned) n
        = some (resample s ((n : Int) - (a : Int))) := by
  intro assigned
  induction assigned with
  | nil => intro m prev _ ha _ _ _; simp at ha
  | cons note rest ih =>
    intro m prev hs ha hl hnear hprev
    obtain ⟨hlt, hsr⟩ := List.sorted_cons.mp hs
    rcases List.mem_cons.mp ha with rfl | hr
    · have hm'a : lookupM (fillBackwardFrom resample m a rest) a = lookupM m a :=
        fillBackwardFrom_low_preserve _ _ _ _ _ le_rfl hlt
      rw [hl] at hm'a
      simp only [fillBackwardFrom, hm'a]
      rw [lookupM_fillRange_mem _ _ _ _ _ _ (by rw [mem_span]; omega)]
    · have hna : note < a := hlt a hr
      have hnoten : note < n := hnear note (by simp) hna
      have h1 := ih m note hsr hr hl
        (fun b hb hba => hnear b (by simp [hb]) hba) hnoten
      cases hlc : lookupM (fillBackwardFrom resample m note rest) note with
      | none =>
        simp only [fillBackwardFrom, hlc]
        exact h1
      | some rs =>
        simp only [fillBackwardFrom, hlc]
        rw [lookupM_fillRange_not_mem _ _ _ _ _ _ ?_, h1]
        intro hmem2
        have hsp := (mem_span _ _ _).mp hmem2
        omega

theorem sortedKeys_sorted {S : Type} (m : SoundMap S) (h : nodupKeys m) :
    List.Sorted (· < ·) (sortedKeys m) := by
  have hperm := List.perm_insertionSort (· ≤ · : Nat → Nat → Prop) (mapKeys m)
  have hnd : (sortedKeys m).Nodup := hperm.nodup_iff.mpr h
  exact (List.sorted_insertionSort (· ≤ ·) (mapKeys m)).lt_of_le hnd

theorem mem_sortedKeys {S : Type} (m : SoundMap S) (n : Nat) :
    n ∈ sortedKeys m ↔ n ∈ mapKeys m :=
  (List.perm_insertionSort (· ≤ · : Nat → Nat → Prop) (mapKeys m)).mem_iff

theorem nodupKeys_fillForwardFrom {S : Type} (resample : S → Int → S) :
    ∀ (assigned : List Nat) (m : SoundMap S), nodupKeys m →
      nodupKeys (fillForwardFrom resample m assigned) := by
  intro assigned
  induction assigned with
  | nil => intro m h; exact h
  | cons note rest ih =>
    intro m h
    cases hl : lookupM m note with
    | none =>
      simp only [fillForwardFrom, hl]
      exact ih _ h
    | some rs =>
      simp only [fillForwardFrom, hl]
      exact ih _ (nodupKeys_fillRange _ _ _ _ _ h)

theorem nodupKeys_fillBackwardFrom {S : Type} (resample : S → Int → S) :
    ∀ (assigned : List Nat) (m : SoundMap S) (prev : Nat), nodupKeys m →
      nodupKeys (fillBackwardFrom resample m prev assigned) := by
  intro assigned
  induction assigned with
  | nil => intro m prev h; exact h
  | cons note rest ih =>
    intro m prev h
    cases hlc : lookupM (fillBackwardFrom resample m note rest) note with
    | none =>
      simp only [fillBackwardFrom, hlc]
      exact ih _ _ h
    | some rs =>
      simp only [fillBackwardFrom, hlc]
      exact nodupKeys_fillRange _ _ _ _ _ (ih _ _ h)

theorem nodupKeys_fillUnassignedKeys {S : Type} (resample : S → Int → S)
    (policy : PitchShiftFill) (m : SoundMap S) (h : nodupKeys m) :
    nodupKeys (fillUnassignedKeys resample policy m) := by
  cases policy with
  | OFF => exact h
  | FORWARD => exact nodupKeys_fillForwardFrom _ _ _ h
  | BACKWARD => exact nodupKeys_fillBackwardFrom _ _ _ _ h

theorem fillForwardFrom_isSome {S : Type} (resample : S → Int → S) (n : Nat) :
    ∀ (assigned : List Nat) (m : SoundMap S), (lookupM m n).isSome →
      (lookupM (fillForwardFrom resample m assigned) n).isSome := by
  intro assigned
  induction assigned with
  | nil => intro m h; exact h
  | cons note rest ih =>
    intro m h
    cases hl : lookupM m note with
    | none =>
      simp only [fillForwardFrom, hl]
      exact ih _ h
    | some rs =>
      simp only [fillForwardFrom, hl]
      exact ih _ (lookupM_fillRange_isSome _ _ _ _ _ _ h)

theorem fillBackwardFrom_isSome {S : Type} (resample : S → Int → S) (n : Nat) :
    ∀ (assigned : List Nat) (m : SoundMap S) (prev : Nat),
      (lookupM m n).isSome →
      (lookupM (fillBackwardFrom resample m prev assigned) n).isSome := by
  intro assigned
  induction assigned with
  | nil => intro m prev h; exact h
  | cons note rest ih =>
    intro m prev h
    cases hlc : lookupM (fillBackwardFrom resample m note rest) note with
    | none =>
      simp only [fillBackwardFrom, hlc]
      exact ih _ _ h
    | some rs =>
      simp only [fillBackwardFrom, hlc]
      exact lookupM_fillRange_isSome _ _ _ _ _ _ (ih _ _ h)

theorem fillUnassignedKeys_isSome {S : Type} (resample : S → Int → S)
    (policy : PitchShiftFill) (m : SoundMap S) (n : Nat)
    (h : (lookupM m n).isSome) :
    (lookupM (fillUnassignedKeys resample policy m) n).isSome := by
  cases policy with
  | OFF => exact h
  | FORWARD => exact fillForwardFrom_isSome _ _ _ _ h
  | BACKWARD => exact fillBackwardFrom_isSome _ _ _ _ _ h

theorem preloadSounds_not_mem {S FA : Type} (decode : FA → Option S)
    (n : Nat) :
    ∀ (l : List (Nat × Option FA)) (acc : SoundMap S),
      (∀ q ∈ l, q.1 ≠ n) →
      lookupM (preloadSounds decode l acc) n = lookupM acc n := by
  intro l
  induction l with
  | nil => intro acc _; rfl
  | cons q rest ih =>
    obtain ⟨k, po⟩ := q
    intro acc h
    have hk : k ≠ n := h (k, po) (by simp)
    have hrest : ∀ q ∈ rest, q.1 ≠ n := fun q hq => h q (by simp [hq])
    cases po with
    | none =>
      simp only [preloadSounds]
      exact ih _ hrest
    | some p =>
      cases hd : decode p with
      | none =>
        simp only [preloadSounds, hd]
        exact ih _ hrest
      | some s =>
        simp only [preloadSounds, hd]
        rw [ih _ hrest, lookupM_insertM_ne _ _ _ _ (Ne.symm hk)]

theorem preloadSounds_mem_decoded {S FA : Type} (decode : FA → Option S)
    (n : Nat) (p : FA) (b : S) (hd : decode p = some b) :
    ∀ (l : List (Nat × Option FA)) (acc : SoundMap S),
      (l.map Prod.fst).Nodup → (n, some p) ∈ l →
      lookupM (preloadSounds decode l acc) n = some b := by
  intro l
  induction l with
  | nil => intro acc _ hmem; simp at hmem
  | cons q rest ih =>
    obtain ⟨k, po⟩ := q
    intro acc hnd hmem
    simp only [List.map_cons, List.nodup_cons] at hnd
    rcases List.mem_cons.mp hmem with heq | hmem2
    · obtain ⟨rfl, rfl⟩ := Prod.mk.injEq .. ▸ heq
      simp only [preloadSounds, hd]
      rw [preloadSounds_not_mem _ _ _ _
        (fun q hq hqn => hnd.1 (by simpa [hqn] using List.mem_map_of_mem Prod.fst hq))]
      exact lookupM_insertM_self _ _ _
    · have hne : k ≠ n := by
        intro hkn
        subst hkn
        exact hnd.1 (by simpa using List.mem_map_of_mem Prod.fst hmem2)
      cases po with
      | none =>
        simp only [preloadSounds]
        exact ih _ hnd.2 hmem2
      | some p2 =>
        cases hd2 : decode p2 with
        | none =>
          simp only [preloadSounds, hd2]
          exact ih _ hnd.2 hmem2
        | some s =>
          simp only [preloadSounds, hd2]
          exact ih _ hnd.2 hmem2

theorem preloadSounds_lookup_some {S FA : Type} (decode : FA → Option S)
    (n : Nat) (b : S) :
    ∀ (l : List (Nat × Option FA)) (acc : SoundMap S),
      lookupM (preloadSounds decode l acc) n = some b →
      (∃ p, (n, some p) ∈ l ∧ decode p = some b) ∨ lookupM acc n = some b := by
  intro l
  induction l with
  | nil => intro acc h; exact Or.inr h
  | cons q rest ih =>
    obtain ⟨k, po⟩ := q
    intro acc h
    cases po with
    | none =>
      simp only [preloadSounds] at h
      rcases ih _ h with ⟨p, hp, hdp⟩ | hr
      · exact Or.inl ⟨p, by simp [hp], hdp⟩
      · exact Or.inr hr
    | some p =>
      cases hd : decode p with
      | none =>
        simp only [preloadSounds, hd] at h
        rcases ih _ h with ⟨p2, hp2, hdp2⟩ | hr
        · exact Or.inl ⟨p2, by simp [hp2], hdp2⟩
        · exact Or.inr hr
      | some s =>
        simp only [preloadSounds, hd] at h
        rcases ih _ h with ⟨p2, hp2, hdp2⟩ | hr
        · exact Or.inl ⟨p2, by simp [hp2], hdp2⟩
        · by_cases hkn : n = k
          · subst hkn
            rw [lookupM_insertM_self] at hr
            injection hr with hbs
            exact Or.inl ⟨p, by simp, by rw [hd, hbs]⟩
          · rw [lookupM_insertM_ne _ _ _ _ hkn] at hr
            exact Or.inr hr

theorem nodupKeys_preloadSounds {S FA : Type} (decode : FA → Option S) :
    ∀ (l : List (Nat × Option FA)) (acc : SoundMap S), nodupKeys acc →
      nodupKeys (preloadSounds decode l acc) := by
  intro l
  induction l with
  | nil => intro acc h; exact h
  | cons q rest ih =>
    obtain ⟨k, po⟩ := q
    intro acc h
    cases po with
    | none => exact ih _ h
    | some p =>
      cases hd : decode p with
      | none =>
        simp only [preloadSounds, hd]
        exact ih _ h
      | some s =>
        simp only [preloadSounds, hd]
        exact ih _ (nodupKeys_insertM _ _ _ h)

theorem preloadSounds_isSome {S FA : Type} (decode : FA → Option S)
    (n : Nat) :
    ∀ (l : List (Nat × Option FA)) (acc : SoundMap S),
      (lookupM acc n).isSome →
      (lookupM (preloadSounds decode l acc) n).isSome := by
  intro l
  induction l with
  | nil => intro acc h; exact h
  | cons q rest ih =>
    obtain ⟨k, po⟩ := q
    intro acc h
    cases po with
    | none => exact ih _ h
    | some p =>
      cases hd : decode p with
      | none =>
        simp only [preloadSounds, hd]
        exact ih _ h
      | some s =>
        simp only [preloadSounds, hd]
        exact ih _ (lookupM_insertM_isSome _ _ _ _ h)

theorem exists_nearest_below (n : Nat) :
    ∀ (L : List Nat), (∃ r ∈ L, r < n) →
      ∃ a ∈ L, a < n ∧ ∀ b ∈ L, b < n → b ≤ a := by
  intro L
  induction L with
  | nil => rintro ⟨r, hr, _⟩; simp at hr
  | cons c rest ih =>
    rintro ⟨r, hr, hrn⟩
    by_cases hrest : ∃ r ∈ rest, r < n
    · obtain ⟨a, haL, han, hmax⟩ := ih hrest
      by_cases hc : c < n
      · by_cases hca : c ≤ a
        · refine ⟨a, by simp [haL], han, ?_⟩
          intro b hb hbn
          rcases List.mem_cons.mp hb with rfl | hb2
          · exact hca
          · exact hmax b hb2 hbn
        · refine ⟨c, by simp, hc, ?_⟩
          intro b hb hbn
          rcases List.mem_cons.mp hb with rfl | hb2
          · exact le_rfl
          · exact le_trans (hmax b hb2 hbn) (le_of_not_le hca)
      · refine ⟨a, by simp [haL], han, ?_⟩
        intro b hb hbn
        rcases List.mem_cons.mp hb with rfl | hb2
        · exact absurd hbn hc
        · exact hmax b hb2 hbn
    · have hc : c < n := by
        rcases List.mem_cons.mp hr with rfl | h2
        · exact hrn
        · exact absurd ⟨r, h2, hrn⟩ hrest
      refine ⟨c, by simp, hc, ?_⟩
      intro b hb hbn
      rcases List.mem_cons.mp hb with rfl | hb2
      · exact le_rfl
      · exact absurd ⟨b, hb2, hbn⟩ hrest

theorem fillUnassignedKeys_mem_preserve {S : Type} (resample : S → Int → S)
    (policy : PitchShiftFill) (m : SoundMap S) (hnd : nodupKeys m) (n : Nat)
    (hm : n ∈ mapKeys m) :
    lookupM (fillUnassignedKeys resample policy m) n = lookupM m n := by
  cases policy with
  | OFF => rfl
  | FORWARD =>
    exact fillForwardFrom_mem_preserve _ _ _ _ (sortedKeys_sorted m hnd)
      ((mem_sortedKeys _ _).mpr hm)
  | BACKWARD =>
    exact fillBackwardFrom_mem_preserve _ _ _ _ _ (sortedKeys_sorted m hnd)
      ((mem_sortedKeys _ _).mpr hm)

/-- C1: under policy FORWARD, for every root assignment with at least one
successfully decoded entry, every note `n ≤ 108` above the lowest decoded
root and without a direct root gets a buffer derived from the nearest root
at or below it, resampled with shift `n - root`; and notes below the lowest
root are never filled. -/
theorem c1_forward_fill {S FA : Type} (decode : FA → Option S)
    (resample : S → Int → S) (noteMap : List (Nat × Option FA)) :
    (∀ n, (∃ r ∈ mapKeys (preloadSounds decode noteMap []), r < n) →
      n ∉ mapKeys (preloadSounds decode noteMap []) → n ≤ 108 →
      ∃ a s, a ∈ mapKeys (preloadSounds decode noteMap []) ∧ a < n ∧
        (∀ b ∈ mapKeys (preloadSounds decode noteMap []), b ≤ n → b ≤ a) ∧
        lookupM (preloadSounds decode noteMap []) a = some s ∧
        lookupM (buildLibrary decode resample .FORWARD noteMap) n
          = some (resample s ((n : Int) - (a : Int))))
    ∧ (∀ n, (∀ r ∈ mapKeys (preloadSounds decode noteMap []), n < r) →
      lookupM (buildLibrary decode resample .FORWARD noteMap) n = none) := by
  have hlib : buildLibrary decode resample .FORWARD noteMap
      = fillForwardFrom resample (preloadSounds decode noteMap [])
          (sortedKeys (preloadSounds decode noteMap [])) := rfl
  have hnd : nodupKeys (preloadSounds decode noteMap []) :=
    nodupKeys_preloadSounds _ _ _ (by simp [nodupKeys, mapKeys_nil])
  constructor
  · intro n hex hn h108
    obtain ⟨a, haR, han, hmax⟩ := exists_nearest_below n _ hex
    obtain ⟨s, hsv⟩ := Option.isSome_iff_exists.mp
      (lookupM_isSome_of_mem _ a haR)
    have hmax' : ∀ b ∈ mapKeys (preloadSounds decode noteMap []),
        b ≤ n → b ≤ a := by
      intro b hb hbn
      rcases lt_or_eq_of_le hbn with hlt | rfl
      · exact hmax b hb hlt
      · exact absurd hb hn
    refine ⟨a, s, haR, han, hmax', hsv, ?_⟩
    rw [hlib]
    refine fillForwardFrom_between resample a n s han (by omega) _ _
      (sortedKeys_sorted _ hnd) ((mem_sortedKeys _ _).mpr haR) hsv ?_
    intro b hb hab
    have hbk := (mem_sortedKeys _ _).mp hb
    by_contra hnb
    exact absurd hab (not_lt_of_le (hmax' b hbk (le_of_not_lt hnb)))
  · intro n hbelow
    rw [hlib, fillForwardFrom_le_preserve _ _ _ _
      (fun x hx => le_of_lt (hbelow x ((mem_sortedKeys _ _).mp hx)))]
    refine lookupM_eq_none_of_not_mem _ _ (fun hmem => ?_)
    exact absurd (hbelow n hmem) (lt_irrefl n)

theorem c1_forward_fill_witness :
    (∃ a s, a ∈ mapKeys (preloadSounds some [(100, some 5)] []) ∧ a < 101 ∧
      (∀ b ∈ mapKeys (preloadSounds some [(100, some 5)] []),
        b ≤ 101 → b ≤ a) ∧
      lookupM (preloadSounds some [(100, some 5)] []) a = some s ∧
      lookupM (buildLibrary some
        (fun (b : Nat) (z : Int) => b * 1000 + z.toNat) .FORWARD
        [(100, some 5)]) 101
        = some (s * 1000 + ((101 : Int) - (a : Int)).toNat))
    ∧ lookupM (buildLibrary some
        (fun (b : Nat) (z : Int) => b * 1000 + z.toNat) .FORWARD
        [(100, some 5)]) 99 = none :=
  ⟨(c1_forward_fill some _ _).1 101 ⟨100, by decide, by decide⟩ (by decide)
      (by decide),
    (c1_forward_fill some _ _).2 99 (by decide)⟩

/-- C2: evaluation of the code at the failing input.  With the single root
23 and policy BACKWARD, the build fills note 22 but leaves note 21 empty,
although the claim (and the spec) require every note of `[21, 23)` —
including 21 — to receive a buffer derived from root 23. -/
theorem c2_backward_skips_note_21 :
    lookupM (buildLibrary some (fun (b : Nat) (_ : Int) => b) .BACKWARD
      [(23, some 7)]) 21 = none
    ∧ lookupM (buildLibrary some (fun (b : Nat) (_ : Int) => b) .BACKWARD
      [(23, some 7)]) 22 = some 7 := by
  decide

/-- C3 counterexample: `set_note_map` does not rebuild from the new
assignment alone.  After an initial build from root 100 (policy FORWARD),
replacing the map by `{105: ...}` leaves the stale root buffer at note 100
and the stale derived buffer at note 101 in place, while a fresh build from
the new assignment contains neither. -/
theorem c3_set_note_map_cex :
    lookupM (setNoteMap some (fun (b : Nat) (_ : Int) => b) .FORWARD
      [(105, some 9)]
      (buildLibrary some (fun (b : Nat) (_ : Int) => b) .FORWARD
        [(100, some 5)])) 100 = some 5
    ∧ lookupM (setNoteMap some (fun (b : Nat) (_ : Int) => b) .FORWARD
      [(105, some 9)]
      (buildLibrary some (fun (b : Nat) (_ : Int) => b) .FORWARD
        [(100, some 5)])) 101 = some 5
    ∧ lookupM (buildLibrary some (fun (b : Nat) (_ : Int) => b) .FORWARD
      [(105, some 9)]) 100 = none
    ∧ lookupM (buildLibrary some (fun (b : Nat) (_ : Int) => b) .FORWARD
      [(105, some 9)]) 101 = none := by
  decide

/-- C3 as amended: `set_note_map` decodes the new assignment into the
existing sound dict and reruns the fill over the combined mapping; no prior
buffer is discarded — every note present before the call is still present
afterwards (so the result can differ from a fresh build, as the
counterexample shows). -/
theorem c3_set_note_map_keeps_old {S FA : Type} (decode : FA → Option S)
    (resample : S → Int → S) (policy : PitchShiftFill)
    (newMap : List (Nat × Option FA)) (cur : SoundMap S) (n : Nat)
    (h : n ∈ mapKeys cur) :
    (lookupM (setNoteMap decode resample policy newMap cur) n).isSome := by
  have h0 : (lookupM cur n).isSome := lookupM_isSome_of_mem _ _ h
  have h1 : (lookupM (preloadSounds decode newMap cur) n).isSome :=
    preloadSounds_isSome _ _ _ _ h0
  unfold setNoteMap rebuild
  by_cases hoff : policy = .OFF
  · subst hoff
    simpa using h1
  · rw [if_neg hoff]
    exact fillUnassignedKeys_isSome _ _ _ _ h1

theorem c3_set_note_map_keeps_old_witness :
    42 ∈ mapKeys ([(42, 5)] : SoundMap Nat) ∧
    (lookupM (setNoteMap some (fun (b : Nat) (_ : Int) => b) .OFF []
      [(42, 5)]) 42).isSome :=
  ⟨by decide,
    c3_set_note_map_keeps_old some (fun (b : Nat) (_ : Int) => b) .OFF []
      [(42, 5)] 42 (by decide)⟩

/-- C6: after any completed build or rebuild (initial construction has
`cur = []`, `set_note_map` an arbitrary current dict), every note of the
assignment whose file decodes successfully maps to exactly the freshly
decoded buffer, and the key-uniqueness invariant holds (no note maps to
more than one buffer). -/
theorem c6_roots_map_to_decoded {S FA : Type} (decode : FA → Option S)
    (resample : S → Int → S) (policy : PitchShiftFill)
    (noteMap : List (Nat × Option FA)) (cur : SoundMap S)
    (hmap : (noteMap.map Prod.fst).Nodup) (hcur : nodupKeys cur) :
    (∀ n p b, (n, some p) ∈ noteMap → decode p = some b →
      lookupM (rebuild decode resample policy noteMap cur) n = some b)
    ∧ nodupKeys (rebuild decode resample policy noteMap cur) := by
  have hpre : nodupKeys (preloadSounds decode noteMap cur) :=
    nodupKeys_preloadSounds _ _ _ hcur
  constructor
  · intro n p b hmem hd
    have hlook : lookupM (preloadSounds decode noteMap cur) n = some b :=
      preloadSounds_mem_decoded _ _ _ _ hd _ _ hmap hmem
    have hmemk : n ∈ mapKeys (preloadSounds decode noteMap cur) :=
      mem_mapKeys_of_lookupM _ _ _ hlook
    unfold rebuild
    by_cases hoff : policy = .OFF
    · subst hoff
      simpa using hlook
    · rw [if_neg hoff, fillUnassignedKeys_mem_preserve _ _ _ hpre _ hmemk]
      exact hlook
  · unfold rebuild
    by_cases hoff : policy = .OFF
    · subst hoff
      simpa using hpre
    · rw [if_neg hoff]
      exact nodupKeys_fillUnassignedKeys _ _ _ hpre

theorem c6_roots_map_to_decoded_witness :
    (([(100, some 5)] : List (Nat × Option Nat)).map Prod.fst).Nodup ∧
    nodupKeys ([] : SoundMap Nat) ∧
    lookupM (rebuild some (fun (b : Nat) (_ : Int) => b) .FORWARD
      [(100, some 5)] []) 100 = some 5 ∧
    nodupKeys (rebuild some (fun (b : Nat) (_ : Int) => b) .FORWARD
      [(100, some 5)] []) :=
  ⟨by decide, by simp [nodupKeys, mapKeys],
    (c6_roots_map_to_decoded some (fun (b : Nat) (_ : Int) => b) .FORWARD
      [(100, some 5)] [] (by decide) (by simp [nodupKeys, mapKeys])).1
      100 5 5 (by simp) rfl,
    (c6_roots_map_to_decoded some (fun (b : Nat) (_ : Int) => b) .FORWARD
      [(100, some 5)] [] (by decide) (by simp [nodupKeys, mapKeys])).2⟩

/-- C7: library loading is per-entry and never aborts: a note is in the
preloaded output with buffer `b` exactly when its entry has a path whose
decode succeeds with `b`; entries with a missing/undecodable file (or a
falsy path) are omitted while all other entries are still processed, and
construction always completes (the loader is a total function). -/
theorem c7_per_entry_loading {S FA : Type} (decode : FA → Option S)
    (noteMap : List (Nat × Option FA)) (n : Nat) (b : S)
    (hmap : (noteMap.map Prod.fst).Nodup) :
    lookupM (preloadSounds decode noteMap []) n = some b
      ↔ ∃ p, (n, some p) ∈ noteMap ∧ decode p = some b := by
  constructor
  · intro h
    rcases preloadSounds_lookup_some _ _ _ _ _ h with hl | hr
    · exact hl
    · simp [lookupM] at hr
  · rintro ⟨p, hmem, hd⟩
    exact preloadSounds_mem_decoded _ _ _ _ hd _ _ hmap hmem

theorem c7_per_entry_loading_witness :
    (([(1, some 0), (2, some 7), (3, none)]
      : List (Nat × Option Nat)).map Prod.fst).Nodup ∧
    (lookupM (preloadSounds (fun f : Nat => if f = 0 then none else some f)
        [(1, some 0), (2, some 7), (3, none)] []) 2 = some 7
      ↔ ∃ p, ((2 : Nat), some p) ∈
          ([(1, some 0), (2, some 7), (3, none)] : List (Nat × Option Nat))
        ∧ (if p = 0 then none else some p) = some 7) :=
  ⟨by decide,
    c7_per_entry_loading (fun f : Nat => if f = 0 then none else some f)
      [(1, some 0), (2, some 7), (3, none)] 2 7 (by decide)⟩

/-- C8: dispatch starts a playback exactly when the event is a `note_on`
with positive velocity whose note is in the current library; it never stops
an in-progress playback (the prior playback list is always a prefix of the
new one), and in every other case — lookup miss, zero velocity, note_off —
the state is left unchanged. -/
theorem c8_dispatch {S : Type} (sounds : SoundMap S) (msg : MidiMsg)
    (playing : List S) :
    (∃ t, handleMidiMessage sounds msg playing = playing ++ t)
    ∧ (handleMidiMessage sounds msg playing ≠ playing ↔
        (msg.kind = MsgKind.note_on ∧ 0 < msg.velocity
          ∧ (lookupM sounds msg.note).isSome)) := by
  by_cases hc : msg.kind = MsgKind.note_on ∧ 0 < msg.velocity
  · cases hl : lookupM sounds msg.note with
    | none =>
      refine ⟨⟨[], by simp [handleMidiMessage, hc, hl]⟩, ?_⟩
      simp [handleMidiMessage, hc, hl]
    | some s =>
      refine ⟨⟨[s], by simp [handleMidiMessage, hc, hl]⟩, ?_⟩
      have hne : playing ++ [s] ≠ playing := by
        intro he
        have hlen := congrArg List.length he
        simp at hlen
      simp only [handleMidiMessage, if_pos hc, hl]
      simp [hne, hc, hl]
  · refine ⟨⟨[], by simp [handleMidiMessage, hc]⟩, ?_⟩
    simp only [handleMidiMessage, if_neg hc]
    constructor
    · intro h
      exact absurd rfl h
    · rintro ⟨hA, hB, _⟩
      exact absurd ⟨hA, hB⟩ hc

/-- C9 counterexample: with a zero-frame buffer at root 50 and a valid
buffer at root 60 under FORWARD fill, the `ValueError` raised by
`np.interp` inside `_resample_sound` propagates and the whole fill pass
aborts; nothing is derived for root 60, contradicting skip-and-continue. -/
theorem c9_zero_frame_aborts_cex :
    fillUnassignedKeysE resampleSoundE .FORWARD
      [(50, ([] : List (List Int))), (60, [[1]])] = none := by
  decide

/-- C9 as amended: if resampling a root buffer raises (as it does for a
zero-frame buffer), the exception propagates out of the fill pass, which
aborts as a whole instead of skipping that root: no library state results
and no other root is processed. -/
theorem c9_resample_error_aborts_fill {S : Type}
    (resampleE : S → Int → Option S) (b g : S)
    (hb : resampleE b 1 = none) :
    fillUnassignedKeysE resampleE .FORWARD [(50, b), (60, g)] = none := by
  have h1 : sortedKeys ([(50, b), (60, g)] : SoundMap S) = [50, 60] := by
    simp [sortedKeys, mapKeys, List.insertionSort, List.orderedInsert]
  have h2 : lookupM ([(50, b), (60, g)] : SoundMap S) 50 = some b := by
    simp [lookupM]
  have h3 : List.range' (50 + 1) (List.headD [60] 109 - (50 + 1))
      = 51 :: List.range' 52 8 := by decide
  have h4 : ((51 : Nat) : Int) - ((50 : Nat) : Int) = 1 := by norm_num
  simp only [fillUnassignedKeysE, h1, fillForwardFromE, h2, h3, fillRangeE,
    h4, hb]

theorem c9_resample_error_aborts_fill_witness :
    (fun (_ : Nat) (_ : Int) => (none : Option Nat)) 0 1 = none ∧
    fillUnassignedKeysE (fun (_ : Nat) (_ : Int) => (none : Option Nat))
      .FORWARD [(50, 0), (60, 1)] = none :=
  ⟨rfl, c9_resample_error_aborts_fill
    (fun (_ : Nat) (_ : Int) => (none : Option Nat)) 0 1 rfl⟩

/-- C10: a fill pass (any policy) only adds entries for notes that were
unassigned when the pass started: every note present in the sound mapping
before the pass keeps exactly its previous buffer. -/
theorem c10_fill_only_adds {S : Type} (resample : S → Int → S)
    (policy : PitchShiftFill) (m : SoundMap S) (hnd : nodupKeys m) (n : Nat)
    (hm : n ∈ mapKeys m) :
    lookupM (fillUnassignedKeys resample policy m) n = lookupM m n :=
  fillUnassignedKeys_mem_preserve resample policy m hnd n hm

theorem c10_fill_only_adds_witness :
    nodupKeys ([(107, 3)] : SoundMap Nat) ∧
    107 ∈ mapKeys ([(107, 3)] : SoundMap Nat) ∧
    lookupM (fillUnassignedKeys (fun (b : Nat) (_ : Int) => b + 1) .FORWARD
      [(107, 3)]) 107 = lookupM [(107, 3)] 107 :=
  ⟨by simp [nodupKeys, mapKeys], by decide,
    c10_fill_only_adds (fun (b : Nat) (_ : Int) => b + 1) .FORWARD
      [(107, 3)] (by simp [nodupKeys, mapKeys]) 107 (by decide)⟩

theorem linspace_length (q : Rat) (num : Nat) :
    (linspace q num).length = num := by
  unfold linspace
  by_cases h : num ≤ 1
  · rw [if_pos h, List.length_map, List.length_range]
  · rw [if_neg h, List.length_map, List.length_range]

theorem resampleCore_length (frames : List (List Int)) (num : Nat) :
    (resampleCore frames num).length = num := by
  unfold resampleCore
  rw [List.length_map, linspace_length]

theorem linspace_getElem (q : Rat) (num i : Nat) (h2 : 2 ≤ num)
    (h : i < (linspace q num).length) :
    (linspace q num)[i] = (i : Rat) * q / ((num : Rat) - 1) := by
  have hi : i < num := by rwa [linspace_length] at h
  simp only [linspace, if_neg (by omega : ¬num ≤ 1)]
  rw [List.getElem_map (fun j : Nat => (j : Rat) * q / ((num : Rat) - 1)),
    List.getElem_range]

theorem interpAt_middle (x0 : Rat) (rest : List Rat) (p : Rat) (k : Nat)
    (h0 : ¬p ≤ 0) (h1 : ¬((((x0 :: rest) : List Rat).length : Rat) - 1) ≤ p)
    (hk : p.floor = (k : Int)) :
    interpAt (x0 :: rest) p
      = (x0 :: rest).getD k 0 * (1 - (p - (k : Rat)))
        + (x0 :: rest).getD (k + 1) 0 * (p - (k : Rat)) := by
  simp only [interpAt]
  rw [if_neg h0, if_neg h1, hk, Int.toNat_natCast]

theorem truncQ_nonneg (q : Rat) (h : 0 ≤ q) : truncQ q = ⌊q⌋ :=
  if_pos h

theorem resampleCore_getD (frames : List (List Int)) (num i ch : Nat)
    (h2 : 2 ≤ num) (hi : i < num)
    (hch : ch < (frames.headD []).length) :
    ((resampleCore frames num).getD i []).getD ch 0
      = truncQ (interpAt (channelOf frames ch)
          ((i : Rat) * (frames.length : Rat) / ((num : Rat) - 1))) := by
  have houter : (resampleCore frames num).getD i []
      = (List.range (frames.headD []).length).map (fun c =>
          truncQ (interpAt (channelOf frames c)
            ((i : Rat) * (frames.length : Rat) / ((num : Rat) - 1)))) := by
    unfold resampleCore
    rw [List.getD_eq_getElem _ _
      (by rw [List.length_map, linspace_length]; exact hi)]
    rw [List.getElem_map, linspace_getElem _ _ _ h2]
  rw [houter, List.getD_eq_getElem _ _
    (by rw [List.length_map, List.length_range]; exact hch)]
  rw [List.getElem_map, List.getElem_range]

theorem newLength_three_zero : newLength 3 0 = 3 := by
  unfold newLength
  have h0 : (((0 : Int) : Real) / 12) = 0 := by norm_num
  rw [h0, Real.rpow_zero]
  norm_num

/-- C4: a buffer derived with semitone shift `s` from a source of `F ≥ 1`
frames has exactly `⌊F / 2 ^ (s / 12)⌋` frames (`int()` truncation of the
nonnegative quotient is the floor). -/
theorem c4_frame_count (frames : List (List Int)) (s : Int)
    (_h : 1 ≤ frames.length) :
    ((resampleSound frames s).length : Int)
      = ⌊(frames.length : Real) / (2 : Real) ^ ((s : Real) / 12)⌋ := by
  have hpos : (0 : Real) < (2 : Real) ^ ((s : Real) / 12) :=
    Real.rpow_pos_of_pos (by norm_num) _
  have hnn : 0 ≤ newLength frames.length s :=
    Int.floor_nonneg.mpr (div_nonneg (Nat.cast_nonneg _) (le_of_lt hpos))
  unfold resampleSound
  rw [resampleCore_length, Int.toNat_of_nonneg hnn]
  rfl

theorem c4_frame_count_witness :
    1 ≤ ([[(0 : Int)]] : List (List Int)).length ∧
    ((resampleSound [[(0 : Int)]] 0).length : Int)
      = ⌊(([[(0 : Int)]] : List (List Int)).length : Real)
          / (2 : Real) ^ (((0 : Int) : Real) / 12)⌋ :=
  ⟨by decide, c4_frame_count [[(0 : Int)]] 0 (by decide)⟩

/-- C5 counterexample: resampling `[[0], [10], [20]]` with shift 0 keeps 3
frames; the code samples frame 1 at `np.linspace` position
`1 * 3 / (3 - 1) = 3/2` giving 15, while the claimed position
`1 * 3 / 3 = 1` would give 10. -/
theorem c5_interpolation_positions_cex :
    ((resampleSound [[(0 : Int)], [10], [20]] 0).getD 1 []).getD 0 0 = 15
    ∧ specResampleAt [[(0 : Int)], [10], [20]] 3 1 0 = 10
    ∧ ((resampleSound [[(0 : Int)], [10], [20]] 0).getD 1 []).getD 0 0
        ≠ specResampleAt [[(0 : Int)], [10], [20]] 3 1 0 := by
  have hchan : channelOf [[(0 : Int)], [10], [20]] 0 = [0, 10, 20] := by
    norm_num [channelOf]
  have h15 : interpAt [(0 : Rat), 10, 20] (3 / 2) = 15 := by
    rw [interpAt_middle 0 [10, 20] (3 / 2) 1 (by norm_num) (by norm_num)
      (by rw [show (3 / 2 : Rat).floor = ⌊(3 / 2 : Rat)⌋ from rfl]; norm_num)]
    norm_num
  have h10 : interpAt [(0 : Rat), 10, 20] 1 = 10 := by
    rw [interpAt_middle 0 [10, 20] 1 1 (by norm_num) (by norm_num)
      (by rw [show (1 : Rat).floor = ⌊(1 : Rat)⌋ from rfl]; norm_num)]
    norm_num
  have hA : ((resampleSound [[(0 : Int)], [10], [20]] 0).getD 1 []).getD 0 0
      = 15 := by
    have hr : resampleSound [[(0 : Int)], [10], [20]] 0
        = resampleCore [[(0 : Int)], [10], [20]] 3 := by
      unfold resampleSound
      rw [show ([[(0 : Int)], [10], [20]] : List (List Int)).length = 3
        from rfl, newLength_three_zero]
      rfl
    rw [hr, resampleCore_getD _ _ _ _ (by norm_num) (by norm_num)
      (by norm_num), hchan]
    rw [show ((1 : Nat) : Rat)
        * ((([[(0 : Int)], [10], [20]] : List (List Int)).length : Nat) : Rat)
        / (((3 : Nat) : Rat) - 1) = 3 / 2 by norm_num]
    rw [h15, truncQ_nonneg _ (by norm_num)]
    norm_num
  have hB : specResampleAt [[(0 : Int)], [10], [20]] 3 1 0 = 10 := by
    unfold specResampleAt
    rw [hchan]
    rw [show ((1 : Nat) : Rat)
        * ((([[(0 : Int)], [10], [20]] : List (List Int)).length : Nat) : Rat)
        / ((3 : Nat) : Rat) = 1 by norm_num]
    rw [h10, truncQ_nonneg _ (by norm_num)]
    norm_num
  exact ⟨hA, hB, by rw [hA, hB]; decide⟩

/-- C5 as amended: frame `i` of the derived buffer is, per channel, the
linear interpolation of the source frame sequence at the
endpoint-inclusive `np.linspace` position `i * F / (N - 1)` (positions at
or beyond `F - 1` clamp to the last source frame), cast back to the
integer sample type by truncation — not at position `i * F / N`. -/
theorem c5_interpolation_positions (frames : List (List Int)) (s : Int)
    (i ch : Nat)
    (hN : 2 ≤ (newLength frames.length s).toNat)
    (hi : i < (newLength frames.length s).toNat)
    (hch : ch < (frames.headD []).length) :
    ((resampleSound frames s).getD i []).getD ch 0
      = truncQ (interpAt (channelOf frames ch)
          ((i : Rat) * (frames.length : Rat)
            / (((newLength frames.length s).toNat : Rat) - 1))) := by
  unfold resampleSound
  exact resampleCore_getD frames _ i ch hN hi hch

theorem c5_interpolation_positions_witness :
    2 ≤ (newLength 3 0).toNat ∧
    1 < (newLength 3 0).toNat ∧
    0 < (([[(0 : Int)], [10], [20]] : List (List Int)).headD []).length ∧
    ((resampleSound [[(0 : Int)], [10], [20]] 0).getD 1 []).getD 0 0
      = truncQ (interpAt (channelOf [[(0 : Int)], [10], [20]] 0)
          ((1 : Rat) * ((3 : Nat) : Rat)
            / (((newLength 3 0).toNat : Rat) - 1))) :=
  ⟨by rw [newLength_three_zero]; decide,
    by rw [newLength_three_zero]; decide,
    by decide,
    c5_interpolation_positions [[(0 : Int)], [10], [20]] 0 1 0
      (by rw [show ([[(0 : Int)], [10], [20]] : List (List Int)).length = 3
        from rfl, newLength_three_zero]; decide)
      (by rw [show ([[(0 : Int)], [10], [20]] : List (List Int)).length = 3
        from rfl, newLength_three_zero]; decide)
      (by decide)⟩

end Midieval
